import Mathlib

/-!
Verification development for the code-refactoring tool
(naming-convention engine, rename engine, structural-metrics engine).

The JavaScript sources are embedded shallowly:
strings are Lean strings (lists of characters), the ASCII regex character
classes of the source become decidable character predicates, each regex
replace chain becomes a structural recursion over the character list, and
JS runtime values that matter to the control flow (non-string arguments,
Set objects on the scope stack, NaN from division) are modelled by small
inductive types.
-/

namespace RefactorTool

/-! ## ASCII character classes used by the source regexes

The predicates mirror the character classes appearing in the regexes of
src/utils/namingUtils.js and src/features/checkStructure.js.
Codes: A = 65, Z = 90, a = 97, z = 122, 0 = 48, 9 = 57,
underscore = 95, dash = 45, space = 32, tab = 9, LF = 10, VT = 11,
FF = 12, CR = 13, NBSP = 160, BOM = 65279. -/

/-- Class [a-z]. -/
def isAsciiLower (c : Char) : Bool := decide (97 ≤ c.toNat ∧ c.toNat ≤ 122)

/-- Class [A-Z]. -/
def isAsciiUpper (c : Char) : Bool := decide (65 ≤ c.toNat ∧ c.toNat ≤ 90)

/-- Class [0-9]. -/
def isAsciiDigit (c : Char) : Bool := decide (48 ≤ c.toNat ∧ c.toNat ≤ 57)

/-- Class [a-zA-Z0-9]. -/
def isAlnum (c : Char) : Bool := isAsciiLower c || isAsciiUpper c || isAsciiDigit c

/-- Class [a-z0-9]. -/
def isLowerDigit (c : Char) : Bool := isAsciiLower c || isAsciiDigit c

/-- The JS whitespace class backslash-s (the members relevant to source text). -/
def isJsWs (c : Char) : Bool :=
  decide (c.toNat = 32 ∨ c.toNat = 9 ∨ c.toNat = 10 ∨ c.toNat = 11 ∨ c.toNat = 12 ∨
    c.toNat = 13 ∨ c.toNat = 160 ∨ c.toNat = 65279)

/-- Class [-\s]: dash or whitespace, as in the second replace of toSnakeCase. -/
def isDashSpace (c : Char) : Bool := decide (c.toNat = 45) || isJsWs c

/-- Class [_-]: the separators merged by toCamelCase and toPascalCase. -/
def isSep (c : Char) : Bool := decide (c.toNat = 95 ∨ c.toNat = 45)

/-- JS String.prototype.toUpperCase on one character (ASCII range). -/
def toUpperChar (c : Char) : Char :=
  if isAsciiLower c then Char.ofNat (c.toNat - 32) else c

/-- JS String.prototype.toLowerCase on one character (ASCII range). -/
def toLowerChar (c : Char) : Char :=
  if isAsciiUpper c then Char.ofNat (c.toNat + 32) else c

/-- JS String.prototype.toLowerCase over a whole string (character list). -/
def jsToLowerL (l : List Char) : List Char := l.map toLowerChar

/-! ## Case validators, string level

These are the regex tests of src/utils/namingUtils.js (second revision,
lines 52-67; the regexes are identical in the first revision, lines 1-30).
Each regex is anchored, so it is compiled to a deterministic matcher over
the character list. -/

/-- Shape test for the anchored regex [a-z][a-zA-Z0-9]* over a whole string. -/
def camelShape : List Char → Bool
  | [] => false
  | c :: cs => isAsciiLower c && cs.all isAlnum

/-- Shape test for the anchored regex [A-Z][a-zA-Z0-9]* over a whole string. -/
def pascalShape : List Char → Bool
  | [] => false
  | c :: cs => isAsciiUpper c && cs.all isAlnum

mutual

/-- After the [a-z]+ head of the snake_case regex: more head letters, or the
first underscore group. Part of the matcher for [a-z]+(?:_[a-z0-9]+)+ . -/
def snakeAfter : List Char → Bool
  | [] => false
  | '_' :: cs => snakeGroupStart cs
  | c :: cs => isAsciiLower c && snakeAfter cs

/-- Right after an underscore: the group needs at least one [a-z0-9]. -/
def snakeGroupStart : List Char → Bool
  | [] => false
  | c :: cs => isLowerDigit c && snakeGroupRest cs

/-- Inside a [a-z0-9]+ group: group characters, a new underscore group, or end. -/
def snakeGroupRest : List Char → Bool
  | [] => true
  | '_' :: cs => snakeGroupStart cs
  | c :: cs => isLowerDigit c && snakeGroupRest cs

end

/-- Matcher for the anchored regex [a-z]+(?:_[a-z0-9]+)+ over a whole string. -/
def snakeShape : List Char → Bool
  | [] => false
  | c :: cs => isAsciiLower c && snakeAfter cs

/-- isCamelCase on a string argument: src/utils/namingUtils.js lines 52-56.
Nonempty, matches [a-z][a-zA-Z0-9]* and has an uppercase letter after
position 0. -/
def isCamelCaseStr (s : String) : Bool :=
  !s.data.isEmpty && camelShape s.data && (s.data.drop 1).any isAsciiUpper

/-- isPascalCase on a string argument: src/utils/namingUtils.js lines 58-62.
Nonempty, matches [A-Z][a-zA-Z0-9]* and has a lowercase letter somewhere. -/
def isPascalCaseStr (s : String) : Bool :=
  !s.data.isEmpty && pascalShape s.data && s.data.any isAsciiLower

/-- isSnakeCase on a string argument: src/utils/namingUtils.js lines 64-67.
Nonempty and matches [a-z]+(?:_[a-z0-9]+)+ . -/
def isSnakeCaseStr (s : String) : Bool :=
  !s.data.isEmpty && snakeShape s.data

/-! ## Case transformers, string level

Each JS replace chain is compiled to recursions over the character list.
The global regex semantics (leftmost match, greedy quantifiers, resume
scanning after the consumed match) is reproduced by the recursion
structure. -/

mutual

/-- First replace of toCamelCase: the global regex [_-]+(.)? with the
replacement uppercasing the captured character and dropping the
separators (src/utils/namingUtils.js line 74). Scanning state: outside a
separator run. -/
def camelRepl : List Char → List Char
  | [] => []
  | c :: cs => if isSep c then camelSep cs else c :: camelRepl cs

/-- Scanning state: inside a [_-]+ run. The run is greedy; the optional
dot captures the next character unless it is a newline (a dot does not
match a line break) or the end of the string. -/
def camelSep : List Char → List Char
  | [] => []
  | c :: cs =>
    if isSep c then camelSep cs
    else if c = '\n' then c :: camelRepl cs
    else toUpperChar c :: camelRepl cs

end

/-- Second replace of toCamelCase: the anchored regex ^[A-Z] replaced by the
lowercased character (src/utils/namingUtils.js line 75). -/
def lowerFirst : List Char → List Char
  | [] => []
  | c :: cs => if isAsciiUpper c then toLowerChar c :: cs else c :: cs

/-- toCamelCase of the second revision of src/utils/namingUtils.js
(lines 70-76): the toLowerCase step is commented out there, so the chain is
only the separator merge followed by lowercasing the first character.
The empty string falls into the isNonEmptyString guard and is returned
unchanged. -/
def toCamelCaseStr (s : String) : String :=
  if s.data.isEmpty then s else ⟨lowerFirst (camelRepl s.data)⟩

/-- toCamelCase of the first revision of src/utils/namingUtils.js
(lines 8-13): lowercases the whole name first, then applies the same
separator merge and first-character lowering. -/
def toCamelCaseV1Str (s : String) : String :=
  ⟨lowerFirst (camelRepl (jsToLowerL s.data))⟩

/-- First replace of toPascalCase: the global regex ([a-z])([A-Z]) with
replacement inserting a space between the two captured characters
(src/utils/namingUtils.js line 81). Both captured characters are consumed
by a match and scanning resumes after them. -/
def pascalSplit : List Char → List Char
  | [] => []
  | [c] => [c]
  | c1 :: c2 :: cs =>
    if isAsciiLower c1 && isAsciiUpper c2 then c1 :: ' ' :: c2 :: pascalSplit cs
    else c1 :: pascalSplit (c2 :: cs)

mutual

/-- Second replace of toPascalCase: the global regex [_-]+ replaced by one
space (src/utils/namingUtils.js line 82). Scanning state: outside a run. -/
def pascalSep : List Char → List Char
  | [] => []
  | c :: cs => if isSep c then ' ' :: pascalSkip cs else c :: pascalSep cs

/-- Scanning state: inside a greedy [_-]+ run already replaced by a space. -/
def pascalSkip : List Char → List Char
  | [] => []
  | c :: cs => if isSep c then pascalSkip cs else c :: pascalSep cs

end

/-- JS String.prototype.split on the one-character separator space:
empty segments are kept, and splitting the empty string yields one empty
segment. -/
def splitSpace : List Char → List (List Char)
  | [] => [[]]
  | c :: cs =>
    if c = ' ' then [] :: splitSpace cs
    else
      match splitSpace cs with
      | [] => [[c]]
      | w :: ws => (c :: w) :: ws

/-- Per-word step of toPascalCase (src/utils/namingUtils.js line 84):
word.charAt(0).toUpperCase() + word.slice(1).toLowerCase(); the empty word
maps to the empty word. -/
def capWord : List Char → List Char
  | [] => []
  | c :: cs => toUpperChar c :: jsToLowerL cs

/-- toPascalCase of src/utils/namingUtils.js lines 78-86: split camel
humps with spaces, normalise separators to spaces, split on spaces,
capitalise each word and concatenate. Empty strings fall into the
isNonEmptyString guard. -/
def toPascalCaseStr (s : String) : String :=
  if s.data.isEmpty then s
  else ⟨((splitSpace (pascalSep (pascalSplit s.data))).map capWord).flatten⟩

/-- First replace of toSnakeCase: the global regex ([a-z0-9])([A-Z]) with
replacement inserting an underscore between the captured characters
(src/utils/namingUtils.js line 91). -/
def snakeSplit : List Char → List Char
  | [] => []
  | [c] => [c]
  | c1 :: c2 :: cs =>
    if isLowerDigit c1 && isAsciiUpper c2 then c1 :: '_' :: c2 :: snakeSplit cs
    else c1 :: snakeSplit (c2 :: cs)

mutual

/-- Second replace of toSnakeCase: the global regex [-\s]+ replaced by one
underscore (src/utils/namingUtils.js line 92). Scanning state: outside a
run. -/
def dashesToUnderscore : List Char → List Char
  | [] => []
  | c :: cs => if isDashSpace c then '_' :: dashesSkip cs else c :: dashesToUnderscore cs

/-- Scanning state: inside a greedy [-\s]+ run already replaced by one
underscore. -/
def dashesSkip : List Char → List Char
  | [] => []
  | c :: cs => if isDashSpace c then dashesSkip cs else c :: dashesToUnderscore cs

end

mutual

/-- Third replace of toSnakeCase: the global regex ([A-Z]+)([A-Z][a-z0-9]+)
with replacement inserting an underscore between the groups
(src/utils/namingUtils.js line 93). Scanning state: outside an uppercase
run. -/
def snakeCaps : List Char → List Char
  | [] => []
  | c :: cs =>
    if isAsciiUpper c then snakeCapsRun [c] cs else c :: snakeCaps cs
termination_by l => l.length
decreasing_by
  all_goals simp_wf

/-- Scanning state: acc is the current [A-Z]+ run (nonempty, newest last).
A match needs the run to hold at least two capitals with a [a-z0-9]+ run
following; the greedy first group then ends one capital before the end of
the run, and scanning resumes after the greedy [a-z0-9]+ run. -/
def snakeCapsRun (acc : List Char) : List Char → List Char
  | [] => acc
  | c :: cs =>
    if isAsciiUpper c then snakeCapsRun (acc ++ [c]) cs
    else if isLowerDigit c && decide (2 ≤ acc.length) then
      acc.dropLast ++ '_' :: acc.getLastD 'A' ::
        ((c :: cs).takeWhile isLowerDigit ++ snakeCaps ((c :: cs).dropWhile isLowerDigit))
    else acc ++ c :: snakeCaps cs
termination_by l => l.length
decreasing_by
  all_goals simp_wf
  all_goals simp_all [List.dropWhile_cons, List.length_cons]
  all_goals (first
    | omega
    | (have hdw : (List.dropWhile isLowerDigit cs).length ≤ cs.length :=
        (List.dropWhile_sublist isLowerDigit).length_le
       omega))

end

/-- toSnakeCase of src/utils/namingUtils.js lines 88-95: camel split,
dash and space normalisation, the all-caps acronym split, then
toLowerCase. Empty strings fall into the isNonEmptyString guard. -/
def toSnakeCaseStr (s : String) : String :=
  if s.data.isEmpty then s
  else ⟨jsToLowerL (snakeCaps (dashesToUnderscore (snakeSplit s.data)))⟩

/-! ## JS values and the guarded exports of namingUtils

src/utils/namingUtils.js (second revision) guards every function with
isNonEmptyString. The guard distinguishes nonempty strings from
everything else, so non-string JS arguments are modelled by the
remaining constructors; they are all treated alike by the source. -/

/-- A JS value as seen by the namingUtils guards. -/
inductive JSValue where
  | str (s : String)
  | numv (n : Int)
  | boolv (b : Bool)
  | nullv
  | undef
deriving DecidableEq, Repr

/-- isNonEmptyString, src/utils/namingUtils.js lines 47-49:
typeof v is string and v.length is positive. -/
def isNonEmptyString : JSValue → Bool
  | .str s => !s.data.isEmpty
  | _ => false

/-- Exported isCamelCase: the isNonEmptyString conjunct short-circuits all
non-string arguments to false; string arguments go to the regex tests. -/
def isCamelCase : JSValue → Bool
  | .str s => isCamelCaseStr s
  | _ => false

/-- Exported isPascalCase (src/utils/namingUtils.js lines 58-62). -/
def isPascalCase : JSValue → Bool
  | .str s => isPascalCaseStr s
  | _ => false

/-- Exported isSnakeCase (src/utils/namingUtils.js lines 64-67). -/
def isSnakeCase : JSValue → Bool
  | .str s => isSnakeCaseStr s
  | _ => false

/-- Exported toCamelCase: the guard returns the argument unchanged when
isNonEmptyString fails, otherwise the replace chain runs. -/
def toCamelCase : JSValue → JSValue
  | .str s => .str (toCamelCaseStr s)
  | v => v

/-- Exported toPascalCase with the same guard. -/
def toPascalCase : JSValue → JSValue
  | .str s => .str (toPascalCaseStr s)
  | v => v

/-- Exported toSnakeCase with the same guard. -/
def toSnakeCase : JSValue → JSValue
  | .str s => .str (toSnakeCaseStr s)
  | v => v

/-! ## Rename engine of src/features/fixNaming.js (second revision)

The Babel traversal enters every node; the enter hook pushes onto
scopeStack a JS Set holding the binding names of the scope of the node,
and the exit hook pops it (lines 442-453). Each VariableDeclarator and
named FunctionDeclaration visit calls handleBinding with the then-current
stack (lines 454-476). The embedding abstracts the tree walk into the
sequence of handleBinding calls, each carrying the stack it observed;
handleBinding itself (lines 482-494) is embedded step by step, including
the JS value semantics of scopeStack.flat() over Set entries. -/

/-- A value on the scopeStack as built by the traversal: the entries pushed
by the source are JS Sets of binding-name strings. The array constructor
is included because Array.prototype.flat splices nested arrays (and only
arrays) one level deep. -/
inductive ScopeVal where
  | str (s : String)
  | setOfNames (names : List String)
  | arrOfNames (names : List String)
deriving DecidableEq, Repr

/-- Array.prototype.flat with the default depth 1: array elements are
spliced, any non-array element (a Set included) passes through unchanged. -/
def jsFlat : List ScopeVal → List ScopeVal
  | [] => []
  | .arrOfNames ns :: rest => ns.map .str ++ jsFlat rest
  | v :: rest => v :: jsFlat rest

/-- Set.prototype.has under SameValueZero: a string argument is equal only
to the same string, never to a Set object. Building the JS Set from the
list cannot add members, so membership in the list is membership in the
Set. -/
def jsSetHasStr (elems : List ScopeVal) (s : String) : Bool :=
  elems.contains (.str s)

/-- The names bound on the stack, in the sense of the specification: the
union of the binding-name sets pushed for the scopes currently entered. -/
def bindingNamesOnStack (stack : List ScopeVal) : List String :=
  stack.foldr
    (fun v acc =>
      match v with
      | .setOfNames ns => ns ++ acc
      | .arrOfNames ns => ns ++ acc
      | .str n => n :: acc)
    []

/-- The hard-coded short common names of shouldSkipRename
(src/features/fixNaming.js lines 371-385). -/
def shortCommonNames : List String :=
  ["sum", "avg", "max", "min", "val", "num", "idx", "len",
   "row", "col", "tmp", "res", "obj"]

/-- JS toLowerCase over a whole string value. -/
def jsToLowerStr (s : String) : String := ⟨jsToLowerL s.data⟩

/-- shouldSkipRename, src/features/fixNaming.js lines 370-392: single
lowercase word, at most four characters, and in the common-name set.
The style argument is accepted and ignored, as in the source. -/
def shouldSkipRename (name : String) (_style : String) : Bool :=
  let isSingleWord := !name.data.isEmpty && name.data.all isAsciiLower
  let isShort := decide (name.data.length ≤ 4)
  let isCommon := shortCommonNames.contains (jsToLowerStr name)
  isSingleWord && isShort && isCommon

/-- A rename candidate as pushed by handleBinding. -/
structure Candidate where
  original : String
  suggestion : String
deriving DecidableEq, Repr

/-- handleBinding, src/features/fixNaming.js lines 482-494: compute the
suggestion, test the violation conditions, build allBindings as
new Set([...scopeStack.flat()]) and push the candidate when the Set does
not contain the suggestion. -/
def handleBinding (name : String) (scopeStack : List ScopeVal)
    (namingStyle : String) (isStyle : String → Bool) (toStyle : String → String)
    (found : List Candidate) : List Candidate :=
  let suggestion := toStyle name
  if !isStyle name && name != suggestion && !shouldSkipRename name namingStyle then
    let allBindings := jsFlat scopeStack
    if !jsSetHasStr allBindings suggestion then found ++ [⟨name, suggestion⟩]
    else found
  else found

/-- One declaration visit of the traversal: the declared name together
with the scopeStack contents at that point of the walk. -/
structure VisitEvent where
  name : String
  stack : List ScopeVal
deriving DecidableEq, Repr

/-- The candidate list produced by the traversal of findNamingMismatches
(src/features/fixNaming.js lines 442-476): handleBinding is folded over
the declaration visits in walk order, starting from the empty found list. -/
def collectCandidates (visits : List VisitEvent) (namingStyle : String)
    (isStyle : String → Bool) (toStyle : String → String) : List Candidate :=
  visits.foldl
    (fun found v => handleBinding v.name v.stack namingStyle isStyle toStyle found) []

/-- A user-visible message of the rename flow. -/
inductive UIMessage where
  | errorMsg (text : String)
  | infoMsg (text : String)
deriving DecidableEq, Repr

/-- The parse-failure message of findNamingMismatches (line 437). -/
def parseErrorText : String := "❌ Could not parse the file. Check for syntax errors."

/-- The zero-candidates message of runFixNaming (line 334). -/
def allNamesFollowText (style : String) : String :=
  "✅ All names follow " ++ style ++ "!"

/-- findNamingMismatches on the JavaScript path
(src/features/fixNaming.js lines 428-480): parsing the source either
fails or yields the tree walk. On failure the error message is shown and
the empty list is returned (lines 435-440); on success the walk collects
the candidates. The parse outcome stands in for parser.parse, and the
emitted messages are returned alongside the list. -/
def findNamingMismatchesJS (parsed : Option (List VisitEvent))
    (namingStyle : String) (isStyle : String → Bool) (toStyle : String → String) :
    List Candidate × List UIMessage :=
  match parsed with
  | none => ([], [.errorMsg parseErrorText])
  | some visits => (collectCandidates visits namingStyle isStyle toStyle, [])

/-- How the invocation ends after the candidate list is known. -/
inductive RenameFlowOutcome where
  | reportedNoCandidates
  | proceededToRenaming (found : List Candidate)
deriving DecidableEq, Repr

/-- runFixNaming after the style choice, on a JavaScript document
(src/features/fixNaming.js lines 319-345): call findNamingMismatches;
when the list is empty show the all-names-follow information message and
stop, otherwise proceed to renaming. The returned pair is the message
sequence shown and the outcome reached. -/
def runFixNamingJS (parsed : Option (List VisitEvent)) (namingStyle : String)
    (isStyle : String → Bool) (toStyle : String → String) :
    List UIMessage × RenameFlowOutcome :=
  let r := findNamingMismatchesJS parsed namingStyle isStyle toStyle
  if r.1.isEmpty then
    (r.2 ++ [.infoMsg (allNamesFollowText namingStyle)], .reportedNoCandidates)
  else (r.2, .proceededToRenaming r.1)

/-! ## General facts about the scope guard -/

/-- The stack built by the traversal holds only Set values, and
Array.prototype.flat leaves Set values intact, so the Set built from the
flattened stack contains only Set objects and never contains a string:
the membership test of handleBinding is vacuously false on every such
stack. -/
theorem jsSetHasStr_flat_of_sets (s : String) :
    ∀ stack : List ScopeVal, (∀ v ∈ stack, ∃ ns, v = ScopeVal.setOfNames ns) →
      jsSetHasStr (jsFlat stack) s = false := by
  intro stack
  induction stack with
  | nil => intro _; rfl
  | cons v rest ih =>
    intro hsets
    obtain ⟨ns, hv⟩ := hsets v (by simp)
    subst hv
    have hrest := ih (fun w hw => hsets w (by simp [hw]))
    simpa [jsFlat, jsSetHasStr, List.contains_cons] using hrest

/-! ## Claim theorems for the rename engine and the case model -/

/-- Claim C1. The claim states that a candidate whose suggestion already
names a binding visible on the lexical scope stack never appears in the
output list. The code violates it: with the Program scope set containing
myVar and my_var on the stack, the declaration my_var (camelCase target)
yields the suggestion myVar, which is a member of the union of the
binding-name sets on the stack, yet handleBinding pushes the candidate,
because scopeStack.flat() does not flatten Set values and the membership
test of the resulting Set of Sets is always false for a string. -/
theorem scope_guard_never_rejects :
    "myVar" ∈ bindingNamesOnStack [ScopeVal.setOfNames ["myVar", "my_var"]] ∧
    handleBinding "my_var" [ScopeVal.setOfNames ["myVar", "my_var"]]
        "🐫 camelCase" isCamelCaseStr toCamelCaseStr []
      = [⟨"my_var", "myVar"⟩] ∧
    (⟨"my_var", "myVar"⟩ : Candidate) ∈
      handleBinding "my_var" [ScopeVal.setOfNames ["myVar", "my_var"]]
        "🐫 camelCase" isCamelCaseStr toCamelCaseStr [] := by
  refine ⟨by decide, by decide, by decide⟩

/-- Claim C2. The claim states that one run produces at most one candidate
per distinct original name, the first occurrence winning. The walk-level
fold violates it: two declarations of bad_name (for instance one
shadowing the other) produce two candidates with the same original,
because handleBinding has no membership test against the found list. -/
theorem dedup_missing_duplicate_originals :
    collectCandidates
        [⟨"bad_name", [ScopeVal.setOfNames ["bad_name"]]⟩,
         ⟨"bad_name", [ScopeVal.setOfNames ["bad_name"],
                       ScopeVal.setOfNames ["bad_name"]]⟩]
        "🐫 camelCase" isCamelCaseStr toCamelCaseStr
      = [⟨"bad_name", "badName"⟩, ⟨"bad_name", "badName"⟩] ∧
    (collectCandidates
        [⟨"bad_name", [ScopeVal.setOfNames ["bad_name"]]⟩,
         ⟨"bad_name", [ScopeVal.setOfNames ["bad_name"],
                       ScopeVal.setOfNames ["bad_name"]]⟩]
        "🐫 camelCase" isCamelCaseStr toCamelCaseStr).countP
      (fun c => c.original == "bad_name") = 2 := by
  refine ⟨by decide, by decide⟩

/-- Claim C3. The claim states that toCamelCase lowercases the whole input
first, so an already-camelCase input comes back all-lowercase. The current
toCamelCase (second revision, toLowerCase commented out) violates it:
myVariableName is returned unchanged, while the first revision, which the
unit test of the repository pins, returns myvariablename. -/
theorem toCamelCase_keeps_internal_capitals :
    toCamelCaseStr "myVariableName" = "myVariableName" ∧
    toCamelCaseV1Str "myVariableName" = "myvariablename" ∧
    ("myVariableName" : String) ≠ "myvariablename" := by
  refine ⟨by decide, by decide, by decide⟩

/-- Claim C4. All six case-model functions are total over JS values: when
the isNonEmptyString guard fails (empty string or non-string argument)
each transformer returns its argument unchanged and each validator
returns false. -/
theorem case_model_total_on_degenerate_input (v : JSValue)
    (h : isNonEmptyString v = false) :
    toCamelCase v = v ∧ toPascalCase v = v ∧ toSnakeCase v = v ∧
    isCamelCase v = false ∧ isPascalCase v = false ∧ isSnakeCase v = false := by
  cases v <;>
    simp_all [isNonEmptyString, toCamelCase, toPascalCase, toSnakeCase,
      isCamelCase, isPascalCase, isSnakeCase, toCamelCaseStr, toPascalCaseStr,
      toSnakeCaseStr, isCamelCaseStr, isPascalCaseStr, isSnakeCaseStr]

/-- Witness for claim C4 at the null value. -/
theorem case_model_total_on_degenerate_input_witness :
    isNonEmptyString JSValue.nullv = false ∧
    (toCamelCase JSValue.nullv = JSValue.nullv ∧
     toPascalCase JSValue.nullv = JSValue.nullv ∧
     toSnakeCase JSValue.nullv = JSValue.nullv ∧
     isCamelCase JSValue.nullv = false ∧
     isPascalCase JSValue.nullv = false ∧
     isSnakeCase JSValue.nullv = false) :=
  ⟨by decide, case_model_total_on_degenerate_input JSValue.nullv (by decide)⟩

/-- Claim C6. The claim states that a parse failure aborts the rename
operation and is signaled distinctly from the zero-candidates success
outcome. The code violates the abort: on parse failure
findNamingMismatches shows the parse error and returns the empty list,
and runFixNaming then falls into its zero-length branch and additionally
shows the very success message of the zero-violations outcome, ending in
the same reported-no-candidates outcome instead of a distinct abort. -/
theorem parse_failure_reports_success :
    runFixNamingJS none "🐫 camelCase" isCamelCaseStr toCamelCaseStr
      = ([.errorMsg parseErrorText,
          .infoMsg (allNamesFollowText "🐫 camelCase")],
         .reportedNoCandidates) ∧
    runFixNamingJS (some []) "🐫 camelCase" isCamelCaseStr toCamelCaseStr
      = ([.infoMsg (allNamesFollowText "🐫 camelCase")],
         .reportedNoCandidates) ∧
    (runFixNamingJS none "🐫 camelCase" isCamelCaseStr toCamelCaseStr).2
      = (runFixNamingJS (some []) "🐫 camelCase" isCamelCaseStr toCamelCaseStr).2 := by
  refine ⟨by decide, by decide, by decide⟩

/-! ## Character-class facts -/

/-- Reading back the code point packed by Char.ofNat below the surrogate
range. -/
theorem char_toNat_ofNat_lt (n : Nat) (h : n < 55296) : (Char.ofNat n).toNat = n := by
  have hv : Nat.isValidChar n := Or.inl h
  simp [Char.ofNat, hv, Char.ofNatAux, Char.toNat, UInt32.toNat, BitVec.toNat_ofNatLt]

/-- The code point of the lowercased character of an uppercase letter. -/
theorem toLowerChar_toNat_of_upper {c : Char} (h : isAsciiUpper c = true) :
    (toLowerChar c).toNat = c.toNat + 32 := by
  rw [toLowerChar, if_pos h]
  simp only [isAsciiUpper, decide_eq_true_eq] at h
  exact char_toNat_ofNat_lt (c.toNat + 32) (by omega)

/-- toLowerCase never yields an ASCII uppercase letter. -/
theorem isAsciiUpper_toLowerChar (c : Char) : isAsciiUpper (toLowerChar c) = false := by
  by_cases h : isAsciiUpper c = true
  · have ht := toLowerChar_toNat_of_upper h
    simp only [isAsciiUpper, decide_eq_true_eq] at h ⊢
    simp only [decide_eq_false_iff_not]
    omega
  · rw [toLowerChar, if_neg h]
    exact Bool.not_eq_true _ ▸ Bool.of_not_eq_true h

/-- toLowerCase maps no character into the dash-or-whitespace class. -/
theorem isDashSpace_toLowerChar {c : Char} (hc : isDashSpace c = false) :
    isDashSpace (toLowerChar c) = false := by
  by_cases h : isAsciiUpper c = true
  · have ht := toLowerChar_toNat_of_upper h
    simp only [isAsciiUpper, decide_eq_true_eq] at h
    simp only [isDashSpace, isJsWs, ht, Bool.or_eq_false_iff, decide_eq_false_iff_not]
    omega
  · rwa [toLowerChar, if_neg h]

/-- An ASCII uppercase letter is neither a dash nor whitespace. -/
theorem isDashSpace_of_upper {c : Char} (h : isAsciiUpper c = true) :
    isDashSpace c = false := by
  simp only [isAsciiUpper, decide_eq_true_eq] at h
  simp only [isDashSpace, isJsWs, Bool.or_eq_false_iff, decide_eq_false_iff_not]
  omega

/-! ## Claim C10: the three validators are mutually exclusive -/

/-- A string accepted by the camelCase regex starts with a lowercase
letter and holds alphanumeric characters only. -/
theorem camelShape_facts {l : List Char} (h : camelShape l = true) :
    ∃ c cs, l = c :: cs ∧ isAsciiLower c = true ∧ cs.all isAlnum = true := by
  cases l with
  | nil => simp [camelShape] at h
  | cons c cs =>
    simp only [camelShape, Bool.and_eq_true] at h
    exact ⟨c, cs, rfl, h.1, h.2⟩

/-- A string accepted by the PascalCase regex starts with an uppercase
letter. -/
theorem pascalShape_facts {l : List Char} (h : pascalShape l = true) :
    ∃ c cs, l = c :: cs ∧ isAsciiUpper c = true := by
  cases l with
  | nil => simp [pascalShape] at h
  | cons c cs =>
    simp only [pascalShape, Bool.and_eq_true] at h
    exact ⟨c, cs, rfl, h.1⟩

/-- A suffix accepted inside the snake_case regex contains an underscore. -/
theorem snakeAfter_mem : ∀ l, snakeAfter l = true → '_' ∈ l := by
  intro l
  induction l with
  | nil => intro h; simp [snakeAfter] at h
  | cons c cs ih =>
    intro h
    by_cases hc : c = '_'
    · subst hc; exact List.mem_cons_self _ _
    · rw [snakeAfter.eq_def] at h
      split at h
      · simp at h
      · rename_i x2 cs2 heq
        injection heq with h1 h2
        exact absurd h1 hc
      · rename_i x2 c2 cs2 hne heq
        injection heq with h1 h2
        subst h1
        subst h2
        simp only [Bool.and_eq_true] at h
        exact List.mem_cons_of_mem _ (ih h.2)

/-- A string accepted by the snake_case regex starts with a lowercase
letter and contains an underscore after it. -/
theorem snakeShape_facts {l : List Char} (h : snakeShape l = true) :
    ∃ c cs, l = c :: cs ∧ isAsciiLower c = true ∧ '_' ∈ cs := by
  cases l with
  | nil => simp [snakeShape] at h
  | cons c cs =>
    simp only [snakeShape, Bool.and_eq_true] at h
    exact ⟨c, cs, rfl, h.1, snakeAfter_mem cs h.2⟩

/-- Claim C10. The three case-style validity predicates are mutually
exclusive: camelCase and PascalCase disagree on the case of the first
character, and snake_case requires an underscore while the other two
admit alphanumeric characters only. -/
theorem validators_mutually_exclusive (s : String) :
    (isCamelCaseStr s && isPascalCaseStr s) = false ∧
    (isCamelCaseStr s && isSnakeCaseStr s) = false ∧
    (isPascalCaseStr s && isSnakeCaseStr s) = false := by
  refine ⟨?_, ?_, ?_⟩
  · cases hA : isCamelCaseStr s
    · simp
    · simp only [Bool.true_and]
      cases hB : isPascalCaseStr s
      · rfl
      · exfalso
        simp only [isCamelCaseStr, Bool.and_eq_true] at hA
        simp only [isPascalCaseStr, Bool.and_eq_true] at hB
        obtain ⟨c, cs, hd, hlo, _⟩ := camelShape_facts hA.1.2
        obtain ⟨c2, cs2, hd2, hup⟩ := pascalShape_facts hB.1.2
        rw [hd] at hd2
        injection hd2 with h1 h2
        subst h1
        simp only [isAsciiLower, decide_eq_true_eq] at hlo
        simp only [isAsciiUpper, decide_eq_true_eq] at hup
        omega
  · cases hA : isCamelCaseStr s
    · simp
    · simp only [Bool.true_and]
      cases hB : isSnakeCaseStr s
      · rfl
      · exfalso
        simp only [isCamelCaseStr, Bool.and_eq_true] at hA
        simp only [isSnakeCaseStr, Bool.and_eq_true] at hB
        obtain ⟨c, cs, hd, _, hall⟩ := camelShape_facts hA.1.2
        obtain ⟨c2, cs2, hd2, _, hmem⟩ := snakeShape_facts hB.2
        rw [hd] at hd2
        injection hd2 with h1 h2
        subst h2
        have := (List.all_eq_true.mp hall) '_' hmem
        simp [isAlnum, isAsciiLower, isAsciiUpper, isAsciiDigit] at this
  · cases hA : isPascalCaseStr s
    · simp
    · simp only [Bool.true_and]
      cases hB : isSnakeCaseStr s
      · rfl
      · exfalso
        simp only [isPascalCaseStr, Bool.and_eq_true] at hA
        simp only [isSnakeCaseStr, Bool.and_eq_true] at hB
        obtain ⟨c, cs, hd, hup⟩ := pascalShape_facts hA.1.2
        obtain ⟨c2, cs2, hd2, hlo, _⟩ := snakeShape_facts hB.2
        rw [hd] at hd2
        injection hd2 with h1 h2
        subst h1
        simp only [isAsciiLower, decide_eq_true_eq] at hlo
        simp only [isAsciiUpper, decide_eq_true_eq] at hup
        omega

/-! ## Claim C5: toSnakeCase is idempotent

The output of the toSnakeCase chain contains no ASCII uppercase letter
(final toLowerCase) and no dash or whitespace (they were merged into
underscores before anything could reintroduce them), and on such strings
every step of the chain is the identity. -/

/-- No ASCII uppercase letter occurs in the list. -/
def NoUpper (l : List Char) : Prop := ∀ c ∈ l, isAsciiUpper c = false

/-- No dash-or-whitespace character occurs in the list. -/
def NoDS (l : List Char) : Prop := ∀ c ∈ l, isDashSpace c = false

/-- toLowerCase output has no uppercase letters. -/
theorem noUpper_jsToLowerL (l : List Char) : NoUpper (jsToLowerL l) := by
  intro c hc
  obtain ⟨a, _, rfl⟩ := List.mem_map.mp hc
  exact isAsciiUpper_toLowerChar a

/-- toLowerCase keeps the absence of dash and whitespace characters. -/
theorem noDS_jsToLowerL {l : List Char} (h : NoDS l) : NoDS (jsToLowerL l) := by
  intro c hc
  obtain ⟨a, ha, rfl⟩ := List.mem_map.mp hc
  exact isDashSpace_toLowerChar (h a ha)

/-- A sublist inherits NoDS. -/
theorem NoDS.mono {l l' : List Char} (h : NoDS l) (hsub : l' ⊆ l) : NoDS l' :=
  fun c hc => h c (hsub hc)

/-- The underscore is not a dash-or-whitespace character. -/
theorem isDashSpace_underscore : isDashSpace '_' = false := by decide

/-- The dash-and-space normalisation pass removes every dash and
whitespace character (joint statement for both scanning states). -/
theorem noDS_dashes_aux :
    ∀ n l, List.length l ≤ n →
      NoDS (dashesToUnderscore l) ∧ NoDS (dashesSkip l) := by
  intro n
  induction n with
  | zero =>
    intro l hl
    have : l = [] := List.eq_nil_of_length_eq_zero (Nat.le_zero.mp hl)
    subst this
    exact ⟨fun c hc => by simp [dashesToUnderscore] at hc,
           fun c hc => by simp [dashesSkip] at hc⟩
  | succ n ih =>
    intro l hl
    cases l with
    | nil =>
      exact ⟨fun c hc => by simp [dashesToUnderscore] at hc,
             fun c hc => by simp [dashesSkip] at hc⟩
    | cons c cs =>
      have hcs : cs.length ≤ n := by simpa using hl
      have ihcs := ih cs hcs
      constructor
      · intro d hd
        rw [dashesToUnderscore] at hd
        by_cases hds : isDashSpace c
        · rw [if_pos hds] at hd
          rcases List.mem_cons.mp hd with h1 | h1
          · subst h1; exact isDashSpace_underscore
          · exact ihcs.2 d h1
        · rw [if_neg hds] at hd
          rcases List.mem_cons.mp hd with h1 | h1
          · subst h1; exact Bool.of_not_eq_true hds
          · exact ihcs.1 d h1
      · intro d hd
        rw [dashesSkip] at hd
        by_cases hds : isDashSpace c
        · rw [if_pos hds] at hd
          exact ihcs.2 d hd
        · rw [if_neg hds] at hd
          rcases List.mem_cons.mp hd with h1 | h1
          · subst h1; exact Bool.of_not_eq_true hds
          · exact ihcs.1 d h1

/-- The dash-and-space normalisation output has no dash or whitespace. -/
theorem noDS_dashesToUnderscore (l : List Char) : NoDS (dashesToUnderscore l) :=
  (noDS_dashes_aux l.length l le_rfl).1

/-- The last element taken with a default of a nonempty list is a member. -/
theorem getLastD_mem : ∀ (l : List Char) (d : Char), l ≠ [] → l.getLastD d ∈ l := by
  intro l
  induction l with
  | nil => intro d h; exact absurd rfl h
  | cons a t ih =>
    intro d _
    cases t with
    | nil => simp [List.getLastD]
    | cons b t2 =>
      have := ih a (by simp)
      simp [List.getLastD]

/-- The acronym-split pass keeps the absence of dash and whitespace
characters: it only moves characters and inserts underscores (joint
statement for both scanning states). -/
theorem noDS_snakeCaps_aux :
    ∀ n, (∀ l, List.length l ≤ n → NoDS l → NoDS (snakeCaps l)) ∧
         (∀ acc l, List.length l ≤ n → NoDS l → NoDS acc → NoDS (snakeCapsRun acc l)) := by
  intro n
  induction n with
  | zero =>
    constructor
    · intro l hl _
      have : l = [] := List.eq_nil_of_length_eq_zero (Nat.le_zero.mp hl)
      subst this
      intro c hc; simp [snakeCaps] at hc
    · intro acc l hl _ hacc
      have : l = [] := List.eq_nil_of_length_eq_zero (Nat.le_zero.mp hl)
      subst this
      intro c hc; rw [snakeCapsRun] at hc; exact hacc c hc
  | succ n ih =>
    constructor
    · intro l hl hnds
      cases l with
      | nil => intro c hc; simp [snakeCaps] at hc
      | cons c cs =>
        have hcs : cs.length ≤ n := by simpa using hl
        intro d hd
        rw [snakeCaps] at hd
        by_cases hup : isAsciiUpper c
        · rw [if_pos hup] at hd
          refine ih.2 [c] cs hcs (fun e he => hnds e (List.mem_cons_of_mem c he)) ?_ d hd
          intro e he
          rcases List.mem_singleton.mp he with rfl
          exact isDashSpace_of_upper hup
        · rw [if_neg hup] at hd
          rcases List.mem_cons.mp hd with h1 | h1
          · subst h1; exact hnds d (List.mem_cons_self _ _)
          · exact ih.1 cs hcs (fun e he => hnds e (List.mem_cons_of_mem c he)) d h1
    · intro acc l hl hnds hacc
      cases l with
      | nil => intro c hc; rw [snakeCapsRun] at hc; exact hacc c hc
      | cons c cs =>
        have hcs : cs.length ≤ n := by simpa using hl
        have hnds' : NoDS cs := fun e he => hnds e (List.mem_cons_of_mem c he)
        intro d hd
        rw [snakeCapsRun] at hd
        by_cases hup : isAsciiUpper c
        · rw [if_pos hup] at hd
          refine ih.2 (acc ++ [c]) cs hcs hnds' ?_ d hd
          intro e he
          rcases List.mem_append.mp he with h1 | h1
          · exact hacc e h1
          · rcases List.mem_singleton.mp h1 with rfl
            exact isDashSpace_of_upper hup
        · rw [if_neg hup] at hd
          by_cases hm : (isLowerDigit c && decide (2 ≤ acc.length)) = true
          · rw [if_pos hm] at hd
            rcases List.mem_append.mp hd with h1 | h1
            · exact hacc d (List.dropLast_subset _ h1)
            · rcases List.mem_cons.mp h1 with h2 | h2
              · subst h2; exact isDashSpace_underscore
              · rcases List.mem_cons.mp h2 with h3 | h3
                · subst h3
                  refine hacc _ (getLastD_mem acc 'A' ?_)
                  intro hemp
                  rw [hemp] at hm
                  simp at hm
                · rcases List.mem_append.mp h3 with h4 | h4
                  · exact hnds d ((List.takeWhile_sublist _).subset h4)
                  · have hlen : (List.dropWhile isLowerDigit (c :: cs)).length ≤ n := by
                      have hc1 : isLowerDigit c = true := by
                        simp only [Bool.and_eq_true] at hm
                        exact hm.1
                      rw [List.dropWhile_cons, if_pos hc1]
                      have hsubl : (List.dropWhile isLowerDigit cs).length ≤ cs.length :=
                        (List.dropWhile_sublist isLowerDigit).length_le
                      omega
                    exact ih.1 _ hlen
                      (hnds.mono (List.dropWhile_sublist _).subset) d h4
          · rw [if_neg hm] at hd
            rcases List.mem_append.mp hd with h1 | h1
            · exact hacc d h1
            · rcases List.mem_cons.mp h1 with h2 | h2
              · subst h2; exact hnds d (List.mem_cons_self _ _)
              · exact ih.1 cs hcs hnds' d h2

/-- The acronym-split pass keeps the absence of dash and whitespace. -/
theorem noDS_snakeCaps {l : List Char} (h : NoDS l) : NoDS (snakeCaps l) :=
  (noDS_snakeCaps_aux l.length).1 l le_rfl h

/-- On a string with no uppercase letter, the camel-split pass of
toSnakeCase fires no replacement. -/
theorem snakeSplit_id : ∀ l, NoUpper l → snakeSplit l = l := by
  intro l
  induction l with
  | nil => intro _; rfl
  | cons c cs ih =>
    intro h
    cases cs with
    | nil => rfl
    | cons c2 cs2 =>
      have hc2 : isAsciiUpper c2 = false := h c2 (by simp)
      rw [snakeSplit, if_neg (by simp [hc2])]
      have := ih (fun e he => h e (List.mem_cons_of_mem c he))
      rw [this]

/-- On a string with no dash or whitespace, the normalisation pass of
toSnakeCase fires no replacement. -/
theorem dashesToUnderscore_id : ∀ l, NoDS l → dashesToUnderscore l = l := by
  intro l
  induction l with
  | nil => intro _; rfl
  | cons c cs ih =>
    intro h
    have hc : isDashSpace c = false := h c (List.mem_cons_self _ _)
    rw [dashesToUnderscore, if_neg (by simp [hc])]
    rw [ih (fun e he => h e (List.mem_cons_of_mem c he))]

/-- On a string with no uppercase letter, the acronym-split pass of
toSnakeCase fires no replacement. -/
theorem snakeCaps_id : ∀ l, NoUpper l → snakeCaps l = l := by
  intro l
  induction l with
  | nil => intro _; rw [snakeCaps]
  | cons c cs ih =>
    intro h
    have hc : isAsciiUpper c = false := h c (List.mem_cons_self _ _)
    rw [snakeCaps, if_neg (by simp [hc])]
    rw [ih (fun e he => h e (List.mem_cons_of_mem c he))]

/-- On a string with no uppercase letter, toLowerCase is the identity. -/
theorem jsToLowerL_id : ∀ l, NoUpper l → jsToLowerL l = l := by
  intro l
  induction l with
  | nil => intro _; rfl
  | cons c cs ih =>
    intro h
    have hc : isAsciiUpper c = false := h c (List.mem_cons_self _ _)
    show toLowerChar c :: jsToLowerL cs = c :: cs
    rw [toLowerChar, if_neg (by simp [hc]), ih (fun e he => h e (List.mem_cons_of_mem c he))]

/-- Claim C5. toSnakeCase is idempotent: applying the toSnakeCase chain of
src/utils/namingUtils.js twice gives the same string as applying it once. -/
theorem toSnakeCase_idempotent (x : String) :
    toSnakeCaseStr (toSnakeCaseStr x) = toSnakeCaseStr x := by
  by_cases hx : x.data.isEmpty
  · have h1 : toSnakeCaseStr x = x := by rw [toSnakeCaseStr, if_pos hx]
    rw [h1]
    exact h1
  · have h1 : toSnakeCaseStr x =
        ⟨jsToLowerL (snakeCaps (dashesToUnderscore (snakeSplit x.data)))⟩ := by
      rw [toSnakeCaseStr, if_neg hx]
    rw [h1]
    have hup : NoUpper (jsToLowerL (snakeCaps (dashesToUnderscore (snakeSplit x.data)))) :=
      noUpper_jsToLowerL _
    have hds : NoDS (jsToLowerL (snakeCaps (dashesToUnderscore (snakeSplit x.data)))) :=
      noDS_jsToLowerL (noDS_snakeCaps (noDS_dashesToUnderscore _))
    set y : List Char := jsToLowerL (snakeCaps (dashesToUnderscore (snakeSplit x.data)))
    by_cases hye : (⟨y⟩ : String).data.isEmpty
    · rw [toSnakeCaseStr, if_pos hye]
    · rw [toSnakeCaseStr, if_neg hye]
      have hdata : (⟨y⟩ : String).data = y := rfl
      rw [hdata, snakeSplit_id y hup, dashesToUnderscore_id y hds,
        snakeCaps_id y hup, jsToLowerL_id y hup]

/-! ## JS numbers for the aggregate metrics

src/features/checkStructure.js divides by list lengths that can be zero;
JS then yields NaN (or a signed infinity), and Number.prototype.toFixed
renders NaN as the string NaN. The embedding keeps those outcomes
explicit. All numerators in scope are integers (line counts and their
sums) and all denominators are list lengths, so a finite quotient is
carried as an exact numerator-denominator pair, which also models the
float at the magnitudes in scope. -/

/-- A JS number outcome: NaN, a signed infinity, or the finite quotient
num/den with positive den (maintained by construction in jsDiv). -/
inductive JSNum where
  | nan
  | inf
  | ninf
  | frac (num : ℤ) (den : ℕ)
deriving DecidableEq, Repr

/-- JS division of an integer by a count: zero over zero is NaN, a
nonzero value over zero is a signed infinity, everything else the exact
quotient. -/
def jsDiv (a : ℤ) (b : ℕ) : JSNum :=
  if b = 0 then (if a = 0 then .nan else if 0 < a then .inf else .ninf)
  else .frac a b

/-- Multiplication of a JS number outcome by an integer factor,
as in density times 100. -/
def jsMulNum : JSNum → ℤ → JSNum
  | .nan, _ => .nan
  | .inf, m => if m = 0 then .nan else if 0 < m then .inf else .ninf
  | .ninf, m => if m = 0 then .nan else if 0 < m then .ninf else .inf
  | .frac a b, m => .frac (a * m) b

/-- One-decimal rendering of the nonnegative quotient a/b with positive
b: round half up on tenths, print the integral part, a dot, and the
tenths digit. -/
def formatFixed1Nonneg (a b : ℕ) : String :=
  let n : ℕ := (20 * a + b) / (2 * b)
  toString (n / 10) ++ "." ++ toString (n % 10)

/-- One-decimal rendering of a finite quotient with the sign split off
(toFixed rounds the magnitude). -/
def formatFixed1 (a : ℤ) (b : ℕ) : String :=
  if a < 0 then "-" ++ formatFixed1Nonneg (-a).toNat b
  else formatFixed1Nonneg a.toNat b

/-- Number.prototype.toFixed(1) over a JS number outcome: NaN renders as
the string NaN, infinities as Infinity strings. -/
def toFixed1 : JSNum → String
  | .nan => "NaN"
  | .inf => "Infinity"
  | .ninf => "-Infinity"
  | .frac a b => formatFixed1 a b

/-! ## Aggregate metrics of src/features/checkStructure.js -/

/-- The fields of a collected function record that the aggregates read. -/
structure FnEntry where
  lines : ℤ
deriving DecidableEq, Repr

/-- calculateAverageFunctionLength, src/features/checkStructure.js lines
206-210: reduce the lengths with initial value 0, divide by the list
length, render with toFixed(1). On the empty list this is 0 divided by 0. -/
def calculateAverageFunctionLength (functions : List FnEntry) : String :=
  toFixed1 (jsDiv (functions.foldl (fun sum fn => sum + fn.lines) 0)
    functions.length)

/-- JS String.prototype.trim over a character list
(the whitespace class of isJsWs). -/
def jsTrimL (l : List Char) : List Char :=
  ((l.dropWhile isJsWs).reverse.dropWhile isJsWs).reverse

/-- JS String.prototype.trim. -/
def jsTrim (s : String) : String := ⟨jsTrimL s.data⟩

/-- JS String.prototype.split on the newline character: empty segments
are kept, and splitting the empty string yields one empty segment. -/
def splitLines : List Char → List (List Char)
  | [] => [[]]
  | c :: cs =>
    if c = '\n' then [] :: splitLines cs
    else
      match splitLines cs with
      | [] => [[c]]
      | w :: ws => (c :: w) :: ws

/-- Comment-line test of calculateCommentDensity: the trimmed line starts
with a line comment, a block-comment opener, or a block-comment
continuation star. -/
def isCommentLineL (l : List Char) : Bool :=
  ['/', '/'].isPrefixOf (jsTrimL l) || ['/', '*'].isPrefixOf (jsTrimL l) ||
    ['*'].isPrefixOf (jsTrimL l)

/-- calculateCommentDensity, src/features/checkStructure.js lines
213-223: count comment lines among the split lines, divide by the passed
line count, scale to a percentage, render with toFixed(1). -/
def calculateCommentDensity (code : String) (lines : ℕ) : String :=
  let commentLines := ((splitLines code.data).filter isCommentLineL).length
  toFixed1 (jsMulNum (jsDiv commentLines lines) 100)

/-- The line count the callers pass: code.split newline length
(src/features/checkStructure.js line 26). It is at least one even for
empty text. -/
def totalLines (code : String) : ℕ := (splitLines code.data).length

/-! ## Size-scaled health score of src/unnamed/part_002 -/

/-- The functionsData aggregate handed to calculateHealthScore. -/
structure FunctionsData where
  topLevelFunctions : ℕ
  largeFunctions : List FnEntry
  undocumented : List FnEntry
deriving Repr

/-- The dead-code report of checkDeadCode: unused variable names and
uncalled function names. -/
structure DeadCodeInfo where
  unusedVariables : List String
  unusedFunctions : List String
deriving Repr

/-- A recorded duplicate pair (the DuplicateBlock of the specification):
normalized content with the first and second 1-based line numbers. -/
structure DuplicateBlock where
  block : String
  firstOccurrence : ℕ
  secondOccurrence : ℕ
deriving DecidableEq, Repr

/-- calculateHealthScore, src/unnamed/part_002 lines 272-296: size factor
floor(lines/1000), capped thresholds, one issue per exceeded threshold,
one for any duplication, floor(unused/2) for dead code, and
max(0, 100 - issueCount * 15). -/
def calculateHealthScore (functionsData : FunctionsData)
    (duplicateCode : List DuplicateBlock) (deadCode : DeadCodeInfo)
    (lines : ℕ) : ℤ :=
  let sizeFactor := lines / 1000
  let maxTopLevelFunctions := min 30 (10 + sizeFactor)
  let maxLargeFunctions := min 15 (5 + sizeFactor)
  let maxUndocumented := min 15 (sizeFactor + 2)
  let topLevelFunctionIssue :=
    if functionsData.topLevelFunctions > maxTopLevelFunctions then 1 else 0
  let largeFunctionIssue :=
    if functionsData.largeFunctions.length > maxLargeFunctions then 1 else 0
  let undocumentedIssue :=
    if functionsData.undocumented.length > maxUndocumented then 1 else 0
  let duplicationPenalty := if duplicateCode.length > 0 then 1 else 0
  let deadCodePenalty :=
    (deadCode.unusedVariables.length + deadCode.unusedFunctions.length) / 2
  let issueCount : ℕ := topLevelFunctionIssue + largeFunctionIssue +
    undocumentedIssue + duplicationPenalty + deadCodePenalty
  max 0 (100 - (issueCount : ℤ) * 15)

/-! ## Duplicate-line detection of src/features/checkStructure.js -/

/-- A line record of checkCodeDuplication: 1-based line number and the
trimmed line text. -/
structure CodeBlock where
  lineNumber : ℕ
  code : String
deriving DecidableEq, Repr

/-- The map step of checkCodeDuplication (lines 93-98): each split line
becomes a record with its index plus one and its trimmed text. -/
def numberLines (n : ℕ) : List String → List CodeBlock
  | [] => []
  | l :: ls => ⟨n, jsTrim l⟩ :: numberLines (n + 1) ls

/-- The filter step of checkCodeDuplication (line 99): lines that are
exactly a closing brace or empty after trimming are discarded. -/
def keptBlocks (code : String) : List CodeBlock :=
  (numberLines 1 ((splitLines code.data).map (fun l => (⟨l⟩ : String)))).filter
    (fun b => b.code != "\x7d" && b.code != "")

mutual

/-- cleanCodeBlock whitespace collapse (line 87): the global regex \s+
replaced by one space. Scanning state: outside a whitespace run. -/
def collapseWsL : List Char → List Char
  | [] => []
  | c :: cs => if isJsWs c then ' ' :: collapseSkip cs else c :: collapseWsL cs

/-- Scanning state: inside a greedy whitespace run already replaced. -/
def collapseSkip : List Char → List Char
  | [] => []
  | c :: cs => if isJsWs c then collapseSkip cs else c :: collapseWsL cs

end

/-- cleanCodeBlock, src/features/checkStructure.js lines 86-88: collapse
whitespace runs to single spaces and trim. -/
def cleanCodeBlock (s : String) : String := jsTrim ⟨collapseWsL s.data⟩

/-- generateCodeHash, src/features/checkStructure.js lines 79-83, builds a
sha256 hex digest of the cleaned line. The digest only serves as a map
key, so collision resistance is modelled by taking the content itself as
the injective key. -/
def generateCodeHash (codeBlock : String) : String := codeBlock

/-- The hashes object of checkCodeDuplication as a key-value list:
property lookup by key equality. -/
def lookupHash : List (String × ℕ) → String → Option ℕ
  | [], _ => none
  | (k, n) :: rest, key => if k == key then some n else lookupHash rest key

/-- The evolution of the hashes object along the scan: a line whose hash
is unseen stores its line number (line 116), a seen hash leaves the
object unchanged. The stored line numbers are positive, so the JS
truthiness test on the lookup is the option test. -/
def processHashes (hashes : List (String × ℕ)) : List CodeBlock → List (String × ℕ)
  | [] => hashes
  | b :: bs =>
    match lookupHash hashes (generateCodeHash (cleanCodeBlock b.code)) with
    | some _ => processHashes hashes bs
    | none =>
      processHashes ((generateCodeHash (cleanCodeBlock b.code), b.lineNumber) :: hashes) bs

/-- The duplicates accumulated by the forEach of checkCodeDuplication
(lines 104-118): a seen hash records the stored first line and the
current line, an unseen hash stores the line and records nothing. -/
def dupCore (hashes : List (String × ℕ)) : List CodeBlock → List DuplicateBlock
  | [] => []
  | b :: bs =>
    match lookupHash hashes (generateCodeHash (cleanCodeBlock b.code)) with
    | some n => ⟨cleanCodeBlock b.code, n, b.lineNumber⟩ :: dupCore hashes bs
    | none =>
      dupCore ((generateCodeHash (cleanCodeBlock b.code), b.lineNumber) :: hashes) bs

/-- checkCodeDuplication, src/features/checkStructure.js lines 91-121:
number and trim the lines, drop blank and brace-only lines, then scan
with the hash map starting empty. -/
def checkCodeDuplication (code : String) : List DuplicateBlock :=
  dupCore [] (keptBlocks code)

/-! ## Claims C7 and C8 -/

/-- Claim C7. The size-scaled health score: with
sizeFactor = floor(totalLines/1000) the thresholds are
min(30, 10+sizeFactor), min(15, 5+sizeFactor) and min(15, sizeFactor+2);
each exceeded threshold contributes one issue, any duplication one issue,
dead code contributes floor(unused/2); the score is
max(0, 100 - 15 * issueCount). The right-hand side transcribes the
formula of the claim. -/
theorem health_score_formula (fd : FunctionsData) (dup : List DuplicateBlock)
    (dead : DeadCodeInfo) (lines : ℕ) :
    calculateHealthScore fd dup dead lines =
      max 0 (100 - 15 *
        (((if fd.topLevelFunctions > min 30 (10 + lines / 1000) then 1 else 0) +
          (if fd.largeFunctions.length > min 15 (5 + lines / 1000) then 1 else 0) +
          (if fd.undocumented.length > min 15 (lines / 1000 + 2) then 1 else 0) +
          (if 0 < dup.length then 1 else 0) +
          (dead.unusedVariables.length + dead.unusedFunctions.length) / 2 : ℕ) : ℤ)) := by
  simp only [calculateHealthScore, gt_iff_lt, Int.mul_comm]

/-- Claim C8. The claim states that avgFnLength and commentDensity both
render as the string 0.0 on an empty function list or empty input. The
code violates the avgFnLength half: on the empty function list the source
computes (0/0).toFixed(1), which is the string NaN, exactly what the unit
test of the repository (expecting 0.0) rules out; the commentDensity half
holds, since the callers pass the split-line count, which is at least one. -/
theorem avg_length_nan_on_empty :
    calculateAverageFunctionLength [] = "NaN" ∧
    ("NaN" : String) ≠ "0.0" ∧
    calculateCommentDensity "" (totalLines "") = "0.0" := by
  refine ⟨by decide, by decide, by decide⟩

/-! ## Claim C9: duplicate-line reporting -/

/-- Every record numbered from n carries a line number at least n. -/
theorem numberLines_le : ∀ (ls : List String) (n : ℕ),
    ∀ b ∈ numberLines n ls, n ≤ b.lineNumber := by
  intro ls
  induction ls with
  | nil => intro n b hb; simp [numberLines] at hb
  | cons l ls ih =>
    intro n b hb
    rw [numberLines] at hb
    rcases List.mem_cons.mp hb with h | h
    · subst h; exact le_rfl
    · exact le_trans (Nat.le_succ n) (ih (n + 1) b h)

/-- The numbered lines carry strictly increasing line numbers. -/
theorem numberLines_pairwise : ∀ (ls : List String) (n : ℕ),
    (numberLines n ls).Pairwise (fun a b => a.lineNumber < b.lineNumber) := by
  intro ls
  induction ls with
  | nil => intro n; simp [numberLines]
  | cons l ls ih =>
    intro n
    rw [numberLines]
    refine List.Pairwise.cons ?_ (ih (n + 1))
    intro b hb
    exact lt_of_lt_of_le (Nat.lt_succ_self n) (numberLines_le ls (n + 1) b hb)

/-- The kept blocks carry strictly increasing line numbers. -/
theorem keptBlocks_pairwise (code : String) :
    (keptBlocks code).Pairwise (fun a b => a.lineNumber < b.lineNumber) :=
  (numberLines_pairwise ((splitLines code.data).map (fun l => (⟨l⟩ : String))) 1).filter _

/-- Splitting the scan: the duplicates of a concatenation are the
duplicates of the first part followed by the duplicates of the second
part scanned with the evolved hash map. -/
theorem dupCore_append : ∀ (bs1 : List CodeBlock) (hashes : List (String × ℕ))
    (bs2 : List CodeBlock),
    dupCore hashes (bs1 ++ bs2) =
      dupCore hashes bs1 ++ dupCore (processHashes hashes bs1) bs2 := by
  intro bs1
  induction bs1 with
  | nil => intro hashes bs2; rw [processHashes, dupCore]; rfl
  | cons b bs1 ih =>
    intro hashes bs2
    rw [List.cons_append, dupCore, dupCore, processHashes]
    cases hlk : lookupHash hashes (generateCodeHash (cleanCodeBlock b.code)) with
    | some n => simp only [ih]; rfl
    | none => simp only [ih]

/-- Scanning lines none of which clean to the content c leaves the lookup
of c unchanged. -/
theorem lookupHash_processHashes : ∀ (bs : List CodeBlock)
    (hashes : List (String × ℕ)) (c : String),
    (∀ b ∈ bs, cleanCodeBlock b.code ≠ c) →
    lookupHash (processHashes hashes bs) (generateCodeHash c) =
      lookupHash hashes (generateCodeHash c) := by
  intro bs
  induction bs with
  | nil => intro hashes c _; rw [processHashes]
  | cons b bs ih =>
    intro hashes c hnc
    rw [processHashes]
    have hne : cleanCodeBlock b.code ≠ c := hnc b (List.mem_cons_self _ _)
    cases hlk : lookupHash hashes (generateCodeHash (cleanCodeBlock b.code)) with
    | some n => exact ih hashes c (fun e he => hnc e (List.mem_cons_of_mem b he))
    | none =>
      rw [ih _ c (fun e he => hnc e (List.mem_cons_of_mem b he))]
      rw [lookupHash, if_neg (by simpa [generateCodeHash] using hne)]

/-- Once the hash map answers for the content of a block, every later
occurrence of that block in the scan reports a duplicate against the
stored first line. -/
theorem dupCore_mem_of_lookup : ∀ (bs : List CodeBlock)
    (hashes : List (String × ℕ)) (b2 : CodeBlock) (n : ℕ),
    b2 ∈ bs →
    lookupHash hashes (generateCodeHash (cleanCodeBlock b2.code)) = some n →
    (⟨cleanCodeBlock b2.code, n, b2.lineNumber⟩ : DuplicateBlock) ∈
      dupCore hashes bs := by
  intro bs
  induction bs with
  | nil => intro hashes b2 n hmem; simp at hmem
  | cons b bs ih =>
    intro hashes b2 n hmem hlk
    rw [dupCore]
    rcases List.mem_cons.mp hmem with rfl | hmem2
    · rw [hlk]
      exact List.mem_cons_self _ _
    · cases hb : lookupHash hashes (generateCodeHash (cleanCodeBlock b.code)) with
      | some m => exact List.mem_cons_of_mem _ (ih hashes b2 n hmem2 hlk)
      | none =>
        refine ih _ b2 n hmem2 ?_
        rw [lookupHash]
        by_cases hkey :
            generateCodeHash (cleanCodeBlock b.code) =
              generateCodeHash (cleanCodeBlock b2.code)
        · rw [hkey] at hb
          rw [hb] at hlk
          exact absurd hlk (by simp)
        · rw [if_neg (by simpa using hkey)]
          exact hlk

/-- Claim C9. For two kept lines (non-blank, not a lone closing brace)
with the same whitespace-normalized content, where the earlier is the
first occurrence of that content and the later is the second, the scan
records a DuplicateBlock holding the normalized content and both 1-based
line numbers, the first strictly below the second. -/
theorem duplicate_lines_reported (code : String) (b1 b2 : CodeBlock)
    (h1 : b1 ∈ keptBlocks code) (h2 : b2 ∈ keptBlocks code)
    (heq : cleanCodeBlock b1.code = cleanCodeBlock b2.code)
    (hlt : b1.lineNumber < b2.lineNumber)
    (hfirst : ∀ b ∈ keptBlocks code,
      cleanCodeBlock b.code = cleanCodeBlock b1.code →
      b.lineNumber = b1.lineNumber ∨ b2.lineNumber ≤ b.lineNumber) :
    (⟨cleanCodeBlock b1.code, b1.lineNumber, b2.lineNumber⟩ : DuplicateBlock) ∈
        checkCodeDuplication code ∧
      b1.lineNumber < b2.lineNumber := by
  refine ⟨?_, hlt⟩
  obtain ⟨l1, l2, hsplit⟩ := List.append_of_mem h1
  have hpw := keptBlocks_pairwise code
  rw [hsplit] at hpw
  obtain ⟨hpw1, hpw2, hcross⟩ := List.pairwise_append.mp hpw
  have hb2 : b2 ∈ l2 := by
    have h2' := h2
    rw [hsplit] at h2'
    rcases List.mem_append.mp h2' with hin1 | hin2
    · exact absurd (hcross b2 hin1 b1 (List.mem_cons_self _ _)) (by omega)
    · rcases List.mem_cons.mp hin2 with heq2 | hin3
      · rw [heq2] at hlt; exact absurd hlt (lt_irrefl _)
      · exact hin3
  have hl1 : ∀ b ∈ l1, cleanCodeBlock b.code ≠ cleanCodeBlock b1.code := by
    intro b hb hceq
    have hblt : b.lineNumber < b1.lineNumber :=
      hcross b hb b1 (List.mem_cons_self _ _)
    rcases hfirst b (by rw [hsplit]; exact List.mem_append_left _ hb) hceq with h | h
    · omega
    · omega
  rw [checkCodeDuplication, hsplit, dupCore_append]
  refine List.mem_append_right _ ?_
  have hnone : lookupHash (processHashes [] l1)
      (generateCodeHash (cleanCodeBlock b1.code)) = none := by
    rw [lookupHash_processHashes l1 [] (cleanCodeBlock b1.code) hl1]
    rfl
  rw [dupCore, hnone]
  show (⟨cleanCodeBlock b1.code, b1.lineNumber, b2.lineNumber⟩ : DuplicateBlock) ∈
    dupCore ((generateCodeHash (cleanCodeBlock b1.code), b1.lineNumber) ::
      processHashes [] l1) l2
  rw [heq]
  refine dupCore_mem_of_lookup l2 _ b2 b1.lineNumber hb2 ?_
  rw [lookupHash, if_pos (by simp [generateCodeHash])]

/-- A concrete input for the duplicate-reporting theorem: lines one and
three clean to the same content. -/
def dupDemoCode : String := "foo( 1 );\nbar\nfoo(  1 );"

/-- Witness for claim C9 at dupDemoCode: lines 1 and 3 normalize alike,
line 1 is the first occurrence, line 3 the second, and the scan reports
the pair. -/
theorem duplicate_lines_reported_witness :
    ((⟨1, "foo( 1 );"⟩ : CodeBlock) ∈ keptBlocks dupDemoCode ∧
     (⟨3, "foo(  1 );"⟩ : CodeBlock) ∈ keptBlocks dupDemoCode ∧
     cleanCodeBlock (⟨1, "foo( 1 );"⟩ : CodeBlock).code =
       cleanCodeBlock (⟨3, "foo(  1 );"⟩ : CodeBlock).code ∧
     (1 : ℕ) < 3 ∧
     (∀ b ∈ keptBlocks dupDemoCode,
       cleanCodeBlock b.code = cleanCodeBlock (⟨1, "foo( 1 );"⟩ : CodeBlock).code →
       b.lineNumber = 1 ∨ 3 ≤ b.lineNumber)) ∧
    ((⟨cleanCodeBlock (⟨1, "foo( 1 );"⟩ : CodeBlock).code, 1, 3⟩ : DuplicateBlock) ∈
        checkCodeDuplication dupDemoCode ∧ (1 : ℕ) < 3) :=
  ⟨⟨by decide, by decide, by decide, by decide, by decide⟩,
    duplicate_lines_reported dupDemoCode ⟨1, "foo( 1 );"⟩ ⟨3, "foo(  1 );"⟩
      (by decide) (by decide) (by decide) (by decide) (by decide)⟩

end RefactorTool
